import Mathlib

/-!
Verification of the core logic of `src/utils/functions/player.ts` (lavamusic):
the fair-play queue scheduler (`applyFairPlayToQueue`) and the autoplay
pipeline (`autoPlayFunction`, `getSimilarTracksFromLastFm`).

The TypeScript is shallowly embedded: tracks, the player state and the
queue become Lean structures; the network calls (Last.fm lookup, the track
searches) become explicit outcome parameters; the mutations the code performs
(`queue.splice`, `queue.add`, `play()`) become fields of an explicit result
record, so that every observable effect of a run is a value the theorems can
talk about.
-/

namespace Lavamusic

/-- Annotation bag on a track: models `pluginInfo.clientData`, an open-ended
JS object into which the autoplay code merges the key `fromAutoplay: true`.
Modelled as an association list from keys to boolean values. -/
structure PluginInfo where
  clientData : Option (List (String × Bool))
deriving DecidableEq

/-- A track as the two components under verification read it:
`info.title`, `info.author`, the requester's `id` (the grouping key of the
fair-play scheduler; requesters are compared by `id` in the source) and the
`pluginInfo` annotation bag (absent on a fresh track). -/
structure Track where
  title : String
  author : String
  requesterId : String
  pluginInfo : Option PluginInfo
deriving DecidableEq

/-- A `{artist, name}` pair returned by the Last.fm similar-track lookup. -/
structure Candidate where
  artist : String
  name : String
deriving DecidableEq

/-- The `artist` field of a raw Last.fm track object: absent, a plain string,
or an object with a `name` field (the code handles both shapes via
`typeof t.artist === "string" ? t.artist : t.artist.name`). -/
inductive RawArtist where
  | missing
  | str (s : String)
  | obj (objName : String)
deriving DecidableEq

/-- A raw track element of the Last.fm response before the code's
`t.artist && t.name` truthiness filter. -/
structure RawTrack where
  artist : RawArtist
  name : Option String
deriving DecidableEq

/-- The shape of `data.similartracks.track` in the parsed Last.fm JSON:
absent (unexpected data shape), a single object, or an array — the code
normalises a single object to a one-element array. -/
inductive SimilarField where
  | missing
  | single (t : RawTrack)
  | array (ts : List RawTrack)
deriving DecidableEq

/-- Outcome of the Last.fm HTTP round trip: `fail` models the fetch or the
JSON parse throwing (caught by the `try/catch`), `ok` a parsed response. -/
inductive LastFmResponse where
  | fail
  | ok (similar : SimilarField)
deriving DecidableEq

/-- Outcome of one `player.search` call: the promise rejecting, or a result
with its `tracks` array. -/
inductive SearchOutcome where
  | throws
  | ok (tracks : List Track)
deriving DecidableEq

/-- The player state the autoplay pipeline reads: the `autoplay` flag
(`player.get("autoplay")`), whether the player is playing, and the queue. -/
structure PlayerState where
  autoplay : Bool
  playing : Bool
  queue : List Track
deriving DecidableEq

/-- Observable effects of one `autoPlayFunction` run: whether the Last.fm
lookup was reached, the queries sent to the track search service (in issue
order), the payload of each `queue.add` call, the final queue contents, and
whether `player.play()` was invoked. -/
structure AutoResult where
  recCalled : Bool
  searchQueries : List String
  queueAdds : List (List Track)
  finalQueue : List Track
  played : Bool
deriving DecidableEq

/-! ### Small string / assoc-list helpers used by the embedding -/

/-- JavaScript string truthiness: the empty string is falsy. -/
def jsTruthy (s : String) : Bool := s != ""

/-- Truthiness of an optional API key (`!API_KEY` in the source). -/
def apiKeyTruthy : Option String → Bool
  | none => false
  | some s => jsTruthy s

/-- Decides whether `sub` is a prefix of `l` (over characters). -/
def isPrefixChars : List Char → List Char → Bool
  | [], _ => true
  | _ :: _, [] => false
  | a :: as, b :: bs => a == b && isPrefixChars as bs

/-- Decides whether `sub` occurs as a contiguous substring of `l`:
models JavaScript `String.prototype.includes`. -/
def containsSubChars (sub : List Char) : List Char → Bool
  | [] => isPrefixChars sub []
  | b :: bs => isPrefixChars sub (b :: bs) || containsSubChars sub bs

/-- ASCII lowercasing of one character (models `toLowerCase()` on the
characters relevant to the lyric-title patterns). -/
def charLower (c : Char) : Char :=
  if 'A' ≤ c && c ≤ 'Z' then Char.ofNat (c.toNat + 32) else c

/-- Lowercase a character list (models `title.toLowerCase()`). -/
def lowerChars (l : List Char) : List Char :=
  l.map charLower

/-- Lookup of a key in an annotation bag. -/
def getKey : List (String × Bool) → String → Option Bool
  | [], _ => none
  | (k1, v1) :: rest, k => if k1 = k then some v1 else getKey rest k

/-- Object-spread update `{...bag, k: v}`: overwrite the value in place when
the key is present, append the key at the end otherwise. -/
def setKey : List (String × Bool) → String → Bool → List (String × Bool)
  | [], k, v => [(k, v)]
  | (k1, v1) :: rest, k, v =>
      if k1 = k then (k1, v) :: rest else (k1, v1) :: setKey rest k v

/-- Reads the annotation bag of a track through the two optional layers
(`track.pluginInfo?.clientData`), defaulting to the empty bag. -/
def clientDataGet (t : Track) (k : String) : Option Bool :=
  getKey (((t.pluginInfo.getD { clientData := none }).clientData).getD []) k

/-! ### Fair-play scheduler (`applyFairPlayToQueue`, lines 177–214)

The JS builds a `Map` from requester id to that requester's tracks in queue
order (`Map` iterates keys in insertion order, i.e. first appearance), then
repeatedly sweeps the requester groups, appending each group's next track,
until all tracks are placed. Per-requester cursors advancing over a fixed
group are modelled by taking the group's tail each round; the guard
`tracksAdded < tracks.length` is modelled by the count of tracks still to
place, which doubles as the fuel of the sweep recursion. -/

/-- Association list of requester groups in first-appearance order. -/
abbrev ReqGroups := List (String × List Track)

/-- One step of the grouping loop (lines 182–188): append the track to its
requester's group, creating the group at the end on first appearance.
Models `Map.get(...).push` / `Map.set` (keys are unique in a JS `Map`, so
updating the first match is updating the only match). -/
def insertTrack : ReqGroups → Track → ReqGroups
  | [], t => [(t.requesterId, [t])]
  | (k, l) :: rest, t =>
      if k = t.requesterId then (k, l ++ [t]) :: rest
      else (k, l) :: insertTrack rest t

/-- Group the queue snapshot by requester id, keys in first-appearance
order, each group in original relative order. -/
def requesterGroups (tracks : List Track) : ReqGroups :=
  tracks.foldl insertTrack []

/-- The group lists in key order (what the round-robin loop sweeps). -/
def groupLists (g : ReqGroups) : List (List Track) :=
  g.map Prod.snd

/-- Number of tracks not yet placed (`tracks.length - tracksAdded`). -/
def totalLen (groups : List (List Track)) : Nat :=
  (groups.map List.length).sum

/-- The round-robin construction loop (lines 197–207): while tracks remain,
sweep the groups once, taking the head (the track at each cursor) of every
non-empty group, then continue on the tails. `fuel` bounds the number of
sweeps; `totalLen groups` sweeps always suffice because each sweep over a
non-exhausted group list places at least one track. -/
def roundRobinAux : Nat → List (List Track) → List Track
  | 0, _ => []
  | fuel + 1, groups =>
      if totalLen groups = 0 then []
      else groups.filterMap List.head? ++ roundRobinAux fuel (groups.map List.tail)

/-- The fair queue built by the while loop. -/
def roundRobin (groups : List (List Track)) : List Track :=
  roundRobinAux (totalLen groups) groups

/-- The pure ordering computation of `applyFairPlayToQueue` (lines 178–207):
group a snapshot of the queue by requester, then round-robin interleave.
The spec calls this `reorder(tracks)`. -/
def reorder (tracks : List Track) : List Track :=
  roundRobin (groupLists (requesterGroups tracks))

/-- Whole of `applyFairPlayToQueue`, queue state passed explicitly: computes
`fairQueue` from a snapshot of the queue, then ITSELF mutates the queue —
`queue.splice(0, queue.tracks.length)` (drop everything) followed by
`queue.add(fairQueue)` (bulk append) — and returns `fairQueue`.
Result: (returned fair queue, queue contents after the function ran). -/
def applyFairPlayToQueue (queue : List Track) : List Track × List Track :=
  let fairQueue := reorder queue
  let afterSplice := queue.drop queue.length
  (fairQueue, afterSplice ++ fairQueue)

/-- The successive sweeps of the round-robin loop as separate rounds, on the
keyed groups (same recursion as `roundRobinAux`, fuelled identically). -/
def roundsAux : Nat → ReqGroups → List (List Track)
  | 0, _ => []
  | fuel + 1, g =>
      if totalLen (groupLists g) = 0 then []
      else (groupLists g).filterMap List.head? ::
        roundsAux fuel (g.map fun pr => (pr.1, pr.2.tail))

/-- The rounds of the fair-play loop over the requester groups of `tracks`. -/
def fairRounds (tracks : List Track) : List (List Track) :=
  roundsAux (totalLen (groupLists (requesterGroups tracks))) (requesterGroups tracks)

/-! ### Last.fm similar-track lookup (`getSimilarTracksFromLastFm`, lines 12–49) -/

/-- Truthiness of `t.artist` (`{}` objects are truthy, `""` is falsy). -/
def RawArtist.truthy : RawArtist → Bool
  | .missing => false
  | .str s => jsTruthy s
  | .obj _ => true

/-- The `t.artist && t.name` truthiness filter of line 35. -/
def RawTrack.truthy (t : RawTrack) : Bool :=
  t.artist.truthy && (match t.name with
    | none => false
    | some s => jsTruthy s)

/-- The mapping of line 36–39: `typeof t.artist === "string" ? t.artist :
t.artist.name`. The `missing`/`none` defaults are never reached on elements
that passed `RawTrack.truthy`. -/
def RawTrack.toCandidate (t : RawTrack) : Candidate :=
  { artist := match t.artist with
      | .str s => s
      | .obj n => n
      | .missing => ""
    name := t.name.getD "" }

/-- Lines 34–40: filter raw elements by truthiness, map to `{artist, name}`,
keep the first 10. -/
def similarFromRaw (raw : List RawTrack) : List Candidate :=
  ((raw.filter RawTrack.truthy).map RawTrack.toCandidate).take 10

/-- Whole of `getSimilarTracksFromLastFm`: an absent/empty API key returns
`[]` without fetching; the `try/catch` turns a throwing fetch/parse into
`[]`; a response without `similartracks.track` yields `[]`; a single object
is wrapped into a one-element array. The function is total: no outcome makes
it raise to its caller. -/
def getSimilarTracksFromLastFm (apiKey : Option String) (resp : LastFmResponse) :
    List Candidate :=
  if apiKeyTruthy apiKey = false then []
  else
    match resp with
    | .fail => []
    | .ok .missing => []
    | .ok (.single t) => similarFromRaw [t]
    | .ok (.array ts) => similarFromRaw ts

/-! ### Autoplay pipeline (`autoPlayFunction`, lines 84–170) -/

/-- The lyric-video filter predicate (lines 104–108 and 147–150): keep a
track iff its lowercased title contains neither `"lyrics"` nor `"lyric"`. -/
def titleKeep (title : String) : Bool :=
  let t := lowerChars title.data
  !containsSubChars ("lyrics".data) t && !containsSubChars ("lyric".data) t

/-- Lines 110–117 / 152–159: merge `fromAutoplay: true` into the track's
`pluginInfo.clientData` (`track.pluginInfo = track.pluginInfo || {}`, then a
spread of the old `clientData || {}` with the flag set). -/
def markAutoplay (t : Track) : Track :=
  let pi := t.pluginInfo.getD { clientData := none }
  let newData := setKey (pi.clientData.getD []) "fromAutoplay" true
  { t with pluginInfo := some { pi with clientData := some newData } }

/-- The query string of one primary search (line 94). -/
def candidateQuery (c : Candidate) : String :=
  c.artist ++ " " ++ c.name

/-- The fallback query string (line 131). -/
def fallbackQuery (lt : Track) : String :=
  lt.author ++ " popular songs"

/-- Primary-path track collection (lines 92–117): for each candidate, the
search outcome contributes its first track, or nothing when it threw
(`catch → null`) or returned no tracks; then drop `null`s, apply the
lyric filter, keep the first 10, and tag each survivor. The search outcomes
are re-joined in candidate order (`Promise.all` order), modelled by indexing
the search oracle with the candidate's position. -/
def primaryFoundTracks (cands : List Candidate) (search : Nat → SearchOutcome) :
    List Track :=
  let results := (List.range cands.length).map fun i =>
    match search i with
    | .throws => none
    | .ok ts => ts.head?
  ((((results.filterMap id).filter fun t => titleKeep t.title).take 10).map markAutoplay)

/-- Fallback-path track collection (lines 146–159): lyric filter, keep the
first 3, tag each survivor. -/
def fallbackCleanedTracks (ts : List Track) : List Track :=
  (((ts.filter fun t => titleKeep t.title).take 3).map markAutoplay)

/-- Decides that the fallback path yields no usable track: the search threw
(swallowed to `null`) or filtering left nothing. -/
def fallbackYieldsNone : SearchOutcome → Bool
  | .throws => true
  | .ok ts => (fallbackCleanedTracks ts).isEmpty

/-- The fallback block of `autoPlayFunction` (lines 130–169), reached with
the primary queries already issued: one search for `"<author> popular
songs"`; a rejection is swallowed (no enqueue); otherwise filter, cap at 3,
tag, and when anything survives, `queue.add` it and `play()` if the player
was idle and the queue is non-empty after the add. -/
def runFallback (p : PlayerState) (lt : Track) (fb : SearchOutcome)
    (prevQueries : List String) : AutoResult :=
  let queries := prevQueries ++ [fallbackQuery lt]
  match fb with
  | .throws =>
      { recCalled := true, searchQueries := queries, queueAdds := [],
        finalQueue := p.queue, played := false }
  | .ok ts =>
      if 0 < ts.length then
        let cleaned := fallbackCleanedTracks ts
        if 0 < cleaned.length then
          { recCalled := true, searchQueries := queries, queueAdds := [cleaned],
            finalQueue := p.queue ++ cleaned,
            played := !p.playing && decide (0 < (p.queue ++ cleaned).length) }
        else
          { recCalled := true, searchQueries := queries, queueAdds := [],
            finalQueue := p.queue, played := false }
      else
        { recCalled := true, searchQueries := queries, queueAdds := [],
          finalQueue := p.queue, played := false }

/-- Whole of `autoPlayFunction`: the two early returns (autoplay off, no
last track) do nothing at all; otherwise the Last.fm lookup runs, and with
candidates in hand the primary path searches each of the first 10, collects,
filters and tags; a non-empty primary result is enqueued (and playback
started if the player was idle) and the function returns there; an empty
primary result, or no candidates, falls through to the fallback block. -/
def autoPlayFunction (p : PlayerState) (lastTrack : Option Track)
    (apiKey : Option String) (rec : LastFmResponse)
    (search : Nat → SearchOutcome) (fb : SearchOutcome) : AutoResult :=
  if p.autoplay = false then
    { recCalled := false, searchQueries := [], queueAdds := [],
      finalQueue := p.queue, played := false }
  else
    match lastTrack with
    | none =>
        { recCalled := false, searchQueries := [], queueAdds := [],
          finalQueue := p.queue, played := false }
    | some lt =>
        let similarTracks := getSimilarTracksFromLastFm apiKey rec
        if 0 < similarTracks.length then
          let cands := similarTracks.take 10
          let queries := cands.map candidateQuery
          let foundTracks := primaryFoundTracks cands search
          if 0 < foundTracks.length then
            { recCalled := true, searchQueries := queries, queueAdds := [foundTracks],
              finalQueue := p.queue ++ foundTracks,
              played := !p.playing && decide (0 < (p.queue ++ foundTracks).length) }
          else runFallback p lt fb queries
        else runFallback p lt fb []

/-! ### Concrete sample data used by the witnesses -/

/-- A sample track with a given title and requester id. -/
def sampleTrack (ti rq : String) : Track :=
  { title := ti, author := "artist x", requesterId := rq, pluginInfo := none }

def tA1 : Track := sampleTrack "song a" "u1"

def tA2 : Track := sampleTrack "song b" "u1"

def tB1 : Track := sampleTrack "song c" "u2"

def tLyr : Track := sampleTrack "song a (Lyrics)" "u2"

def pIdle : PlayerState := { autoplay := true, playing := false, queue := [] }

def pDisabled : PlayerState := { autoplay := false, playing := false, queue := [tA1] }

/-! ## Theorems -/

/-! ### Helper lemmas: the round-robin loop permutes the grouped tracks -/

theorem totalLen_cons (g : List Track) (gs : List (List Track)) :
    totalLen (g :: gs) = g.length + totalLen gs := by
  simp [totalLen]

theorem totalLen_append (xs ys : List (List Track)) :
    totalLen (xs ++ ys) = totalLen xs + totalLen ys := by
  simp [totalLen]

theorem totalLen_map_tail_le (groups : List (List Track)) :
    totalLen (groups.map List.tail) ≤ totalLen groups := by
  induction groups with
  | nil => simp [totalLen]
  | cons g gs ih =>
      simp only [List.map_cons, totalLen_cons]
      have hg : g.tail.length ≤ g.length := by
        rw [List.length_tail]; omega
      omega

theorem totalLen_map_tail_lt (groups : List (List Track)) (h : totalLen groups ≠ 0) :
    totalLen (groups.map List.tail) < totalLen groups := by
  induction groups with
  | nil => simp [totalLen] at h
  | cons g gs ih =>
      cases g with
      | nil =>
          simp only [List.map_cons, List.tail_nil, totalLen_cons, List.length_nil] at *
          have := ih (by omega)
          omega
      | cons a t =>
          simp only [List.map_cons, List.tail_cons, totalLen_cons, List.length_cons]
          have := totalLen_map_tail_le gs
          omega

theorem flatten_eq_nil_of_totalLen_eq_zero {groups : List (List Track)}
    (h : totalLen groups = 0) : groups.flatten = [] := by
  induction groups with
  | nil => rfl
  | cons g gs ih =>
      rw [totalLen_cons] at h
      have hg : g = [] := List.length_eq_zero.mp (by omega)
      subst hg
      simpa using ih (by omega)

theorem heads_append_tails_perm (groups : List (List Track)) :
    (groups.filterMap List.head? ++ (groups.map List.tail).flatten).Perm groups.flatten := by
  induction groups with
  | nil => simp
  | cons g gs ih =>
      cases g with
      | nil => simpa using ih
      | cons a t =>
          simp only [List.filterMap_cons, List.head?_cons, List.map_cons, List.tail_cons,
            List.flatten_cons, List.cons_append]
          refine List.Perm.cons a ?_
          have h1 : (gs.filterMap List.head? ++ (t ++ (gs.map List.tail).flatten)).Perm
              (t ++ (gs.filterMap List.head? ++ (gs.map List.tail).flatten)) :=
            List.perm_append_comm_assoc _ t _
          exact h1.trans (ih.append_left t)

theorem roundRobinAux_perm (fuel : Nat) :
    ∀ groups : List (List Track), totalLen groups ≤ fuel →
      (roundRobinAux fuel groups).Perm groups.flatten := by
  induction fuel with
  | zero =>
      intro groups h
      rw [roundRobinAux, flatten_eq_nil_of_totalLen_eq_zero (Nat.le_zero.mp h)]
  | succ n ih =>
      intro groups h
      rw [roundRobinAux]
      by_cases h0 : totalLen groups = 0
      · rw [if_pos h0, flatten_eq_nil_of_totalLen_eq_zero h0]
      · rw [if_neg h0]
        have hlt := totalLen_map_tail_lt groups h0
        have hrec := ih (groups.map List.tail) (by omega)
        exact (hrec.append_left _).trans (heads_append_tails_perm groups)

theorem groupLists_insertTrack_flatten_perm (acc : ReqGroups) (t : Track) :
    (groupLists (insertTrack acc t)).flatten.Perm ((groupLists acc).flatten ++ [t]) := by
  induction acc with
  | nil => simp [insertTrack, groupLists]
  | cons pr rest ih =>
      obtain ⟨k, l⟩ := pr
      by_cases hk : k = t.requesterId
      · simp only [insertTrack, if_pos hk, groupLists, List.map_cons, List.flatten_cons]
        have h1 : (l ++ [t]) ++ (rest.map Prod.snd).flatten
            = l ++ ([t] ++ (rest.map Prod.snd).flatten) := by rw [List.append_assoc]
        have h2 : ([t] ++ (rest.map Prod.snd).flatten).Perm
            ((rest.map Prod.snd).flatten ++ [t]) := List.perm_append_comm
        have h3 : (l ++ ((rest.map Prod.snd).flatten ++ [t]))
            = (l ++ (rest.map Prod.snd).flatten) ++ [t] := by rw [List.append_assoc]
        rw [h1, ← h3]
        exact h2.append_left l
      · simp only [insertTrack, if_neg hk, groupLists, List.map_cons, List.flatten_cons]
        have h1 : (l ++ ((groupLists rest).flatten ++ [t]))
            = (l ++ (rest.map Prod.snd).flatten) ++ [t] := by
          rw [List.append_assoc]; rfl
        rw [← h1]
        exact ih.append_left l

theorem foldl_insertTrack_flatten_perm (ts : List Track) :
    ∀ acc : ReqGroups,
      (groupLists (List.foldl insertTrack acc ts)).flatten.Perm
        ((groupLists acc).flatten ++ ts) := by
  induction ts with
  | nil => intro acc; simp
  | cons t rest ih =>
      intro acc
      rw [List.foldl_cons]
      have h1 := ih (insertTrack acc t)
      have h2 : ((groupLists (insertTrack acc t)).flatten ++ rest).Perm
          (((groupLists acc).flatten ++ [t]) ++ rest) :=
        (groupLists_insertTrack_flatten_perm acc t).append_right rest
      have h3 : ((groupLists acc).flatten ++ [t]) ++ rest
          = (groupLists acc).flatten ++ (t :: rest) := by simp
      exact (h1.trans h2).trans (h3 ▸ List.Perm.refl _)

/-- The concatenation of the requester groups is a permutation of the
original queue snapshot. -/
theorem requesterGroups_flatten_perm (ts : List Track) :
    (groupLists (requesterGroups ts)).flatten.Perm ts := by
  simpa [requesterGroups, groupLists] using foldl_insertTrack_flatten_perm ts []

/-- The pure ordering computation is a permutation of its input. -/
theorem reorder_perm (ts : List Track) : (reorder ts).Perm ts := by
  exact (roundRobinAux_perm _ _ (Nat.le_refl _)).trans (requesterGroups_flatten_perm ts)

/-! ### Helper lemmas: the grouping invariants (homogeneous groups, unique
keys in first-appearance order) and per-requester stability -/

theorem insertTrack_homog {acc : ReqGroups} (t : Track)
    (h : ∀ pr ∈ acc, ∀ u ∈ pr.2, u.requesterId = pr.1) :
    ∀ pr ∈ insertTrack acc t, ∀ u ∈ pr.2, u.requesterId = pr.1 := by
  induction acc with
  | nil =>
      intro pr hpr u hu
      simp only [insertTrack, List.mem_singleton] at hpr
      subst hpr
      simp only [List.mem_singleton] at hu
      subst hu
      rfl
  | cons pr0 rest ih =>
      obtain ⟨k, l⟩ := pr0
      intro pr hpr u hu
      by_cases hk : k = t.requesterId
      · rw [insertTrack, if_pos hk] at hpr
        rcases List.mem_cons.mp hpr with h1 | h1
        · subst h1
          rcases List.mem_append.mp hu with h2 | h2
          · exact h (k, l) (List.mem_cons_self _ _) u h2
          · simp only [List.mem_singleton] at h2
            subst h2
            exact hk.symm
        · exact h pr (List.mem_cons_of_mem _ h1) u hu
      · rw [insertTrack, if_neg hk] at hpr
        rcases List.mem_cons.mp hpr with h1 | h1
        · subst h1
          exact h (k, l) (List.mem_cons_self _ _) u hu
        · exact ih (fun q hq => h q (List.mem_cons_of_mem _ hq)) pr h1 u hu

theorem requesterGroups_homog (ts : List Track) :
    ∀ pr ∈ requesterGroups ts, ∀ u ∈ pr.2, u.requesterId = pr.1 := by
  suffices hgen : ∀ acc : ReqGroups, (∀ pr ∈ acc, ∀ u ∈ pr.2, u.requesterId = pr.1) →
      ∀ pr ∈ List.foldl insertTrack acc ts, ∀ u ∈ pr.2, u.requesterId = pr.1 by
    exact hgen [] (by simp)
  induction ts with
  | nil => intro acc h; simpa using h
  | cons t rest ih =>
      intro acc h
      rw [List.foldl_cons]
      exact ih _ (insertTrack_homog t h)

theorem insertTrack_keys (acc : ReqGroups) (t : Track) :
    (insertTrack acc t).map Prod.fst =
      if t.requesterId ∈ acc.map Prod.fst then acc.map Prod.fst
      else acc.map Prod.fst ++ [t.requesterId] := by
  induction acc with
  | nil => simp [insertTrack]
  | cons pr rest ih =>
      obtain ⟨k, l⟩ := pr
      by_cases hk : k = t.requesterId
      · simp [insertTrack, hk]
      · rw [insertTrack, if_neg hk]
        simp only [List.map_cons, List.mem_cons]
        rw [ih]
        by_cases hmem : t.requesterId ∈ rest.map Prod.fst
        · simp [hmem]
        · have hne : ¬t.requesterId = k := fun he => hk he.symm
          simp [hmem, hne]

theorem insertTrack_nodup_keys {acc : ReqGroups} (t : Track)
    (h : (acc.map Prod.fst).Nodup) : ((insertTrack acc t).map Prod.fst).Nodup := by
  rw [insertTrack_keys]
  by_cases hmem : t.requesterId ∈ acc.map Prod.fst
  · simpa [hmem] using h
  · rw [if_neg hmem]
    rw [List.nodup_append]
    exact ⟨h, List.nodup_singleton _, List.disjoint_singleton.mpr hmem⟩

theorem requesterGroups_nodup_keys (ts : List Track) :
    ((requesterGroups ts).map Prod.fst).Nodup := by
  suffices hgen : ∀ acc : ReqGroups, (acc.map Prod.fst).Nodup →
      ((List.foldl insertTrack acc ts).map Prod.fst).Nodup by
    exact hgen [] (by simp)
  induction ts with
  | nil => intro acc h; simpa using h
  | cons t rest ih =>
      intro acc h
      rw [List.foldl_cons]
      exact ih _ (insertTrack_nodup_keys t h)

/-- Groups whose key is not `rid` contribute nothing to the `rid` filter. -/
theorem filter_eq_nil_of_other_key {rid : String} {pr : String × List Track}
    (hhom : ∀ u ∈ pr.2, u.requesterId = pr.1) (hne : pr.1 ≠ rid) :
    pr.2.filter (fun u => u.requesterId == rid) = [] := by
  refine List.filter_eq_nil_iff.mpr (fun u hu => ?_)
  have := hhom u hu
  simp [this, hne]

/-- A group with key `rid` survives the `rid` filter whole. -/
theorem filter_eq_self_of_key {rid : String} {pr : String × List Track}
    (hhom : ∀ u ∈ pr.2, u.requesterId = pr.1) (heq : pr.1 = rid) :
    pr.2.filter (fun u => u.requesterId == rid) = pr.2 := by
  refine List.filter_eq_self.mpr (fun u hu => ?_)
  have := hhom u hu
  simp [this, heq]

/-- Concatenating every group's `rid`-filtered content, over groups that do
not carry the key `rid`, gives nothing. -/
theorem flatten_filter_eq_nil_of_no_key {rid : String} {g : ReqGroups}
    (hhom : ∀ pr ∈ g, ∀ u ∈ pr.2, u.requesterId = pr.1)
    (hkey : rid ∉ g.map Prod.fst) :
    (g.map fun pr => pr.2.filter (fun u => u.requesterId == rid)).flatten = [] := by
  induction g with
  | nil => rfl
  | cons pr rest ih =>
      simp only [List.map_cons, List.mem_cons, not_or] at hkey
      simp only [List.map_cons, List.flatten_cons]
      rw [filter_eq_nil_of_other_key (hhom pr (List.mem_cons_self _ _))
        (fun he => hkey.1 he.symm)]
      simpa using ih (fun q hq => hhom q (List.mem_cons_of_mem _ hq)) hkey.2

theorem insertTrack_flatten_filter (rid : String) {acc : ReqGroups} (t : Track)
    (hhom : ∀ pr ∈ acc, ∀ u ∈ pr.2, u.requesterId = pr.1)
    (hnd : (acc.map Prod.fst).Nodup) :
    ((insertTrack acc t).map fun pr => pr.2.filter (fun u => u.requesterId == rid)).flatten =
      (acc.map fun pr => pr.2.filter (fun u => u.requesterId == rid)).flatten ++
        (if t.requesterId = rid then [t] else []) := by
  induction acc with
  | nil =>
      by_cases ht : t.requesterId = rid <;> simp [insertTrack, ht]
  | cons pr rest ih =>
      obtain ⟨k, l⟩ := pr
      rw [List.map_cons, List.nodup_cons] at hnd
      by_cases hk : k = t.requesterId
      · rw [insertTrack, if_pos hk]
        simp only [List.map_cons, List.flatten_cons, List.filter_append]
        by_cases ht : t.requesterId = rid
        · have hkrid : k = rid := hk.trans ht
          have hrest : (rest.map fun pr =>
              pr.2.filter (fun u => u.requesterId == rid)).flatten = [] := by
            refine flatten_filter_eq_nil_of_no_key
              (fun q hq => hhom q (List.mem_cons_of_mem _ hq)) ?_
            rw [← hkrid]
            exact hnd.1
          rw [hrest, if_pos ht]
          simp [ht, List.append_assoc, hrest]
        · rw [if_neg ht]
          have : List.filter (fun u => u.requesterId == rid) [t] = [] := by
            simp [ht]
          rw [this]
          simp [List.append_assoc]
      · rw [insertTrack, if_neg hk]
        simp only [List.map_cons, List.flatten_cons]
        rw [ih (fun q hq => hhom q (List.mem_cons_of_mem _ hq)) hnd.2]
        rw [List.append_assoc]

/-- The `rid`-filtered content of the requester grouping of `ts`, in group
order, is exactly the `rid` subsequence of `ts`. -/
theorem requesterGroups_flatten_filter (rid : String) (ts : List Track) :
    ((requesterGroups ts).map fun pr =>
        pr.2.filter (fun u => u.requesterId == rid)).flatten =
      ts.filter (fun u => u.requesterId == rid) := by
  suffices hgen : ∀ acc : ReqGroups, (∀ pr ∈ acc, ∀ u ∈ pr.2, u.requesterId = pr.1) →
      (acc.map Prod.fst).Nodup →
      ((List.foldl insertTrack acc ts).map fun pr =>
          pr.2.filter (fun u => u.requesterId == rid)).flatten =
        (acc.map fun pr => pr.2.filter (fun u => u.requesterId == rid)).flatten ++
          ts.filter (fun u => u.requesterId == rid) by
    simpa using hgen [] (by simp) (by simp)
  induction ts with
  | nil => intro acc _ _; simp
  | cons t rest ih =>
      intro acc hhom hnd
      rw [List.foldl_cons]
      rw [ih _ (insertTrack_homog t hhom) (insertTrack_nodup_keys t hnd)]
      rw [insertTrack_flatten_filter rid t hhom hnd]
      by_cases ht : t.requesterId = rid
      · simp [List.filter_cons, ht, List.append_assoc]
      · simp [List.filter_cons, ht, List.append_assoc]

theorem filter_filterMap_head_eq_nil {p : Track → Bool} {L : List (List Track)}
    (h : ∀ l ∈ L, l.filter p = []) : (L.filterMap List.head?).filter p = [] := by
  induction L with
  | nil => rfl
  | cons l L2 ih =>
      have hrest := ih (fun q hq => h q (List.mem_cons_of_mem _ hq))
      cases l with
      | nil => simpa using hrest
      | cons a t =>
          have hpa : ¬p a = true :=
            List.filter_eq_nil_iff.mp (h _ (List.mem_cons_self _ _)) a
              (List.mem_cons_self _ _)
          have hpa2 : p a = false := by simpa using hpa
          simp [List.filterMap_cons, List.filter_cons, hpa2, hrest]

theorem filter_tail_eq_nil {p : Track → Bool} {l : List Track} (h : l.filter p = []) :
    l.tail.filter p = [] := by
  cases l with
  | nil => rfl
  | cons a t =>
      refine List.filter_eq_nil_iff.mpr (fun u hu => ?_)
      exact List.filter_eq_nil_iff.mp h u (List.mem_cons_of_mem _ (by simpa using hu))

theorem filter_tail_eq_self {p : Track → Bool} {l : List Track} (h : l.filter p = l) :
    l.tail.filter p = l.tail := by
  refine List.filter_eq_self.mpr (fun u hu => ?_)
  exact List.filter_eq_self.mp h u (List.mem_of_mem_tail hu)

/-- Filtering the round-robin interleaving down to one group's tracks gives
back exactly that group, when every other group contributes nothing to the
filter. This is the stable-interleave property of the loop. -/
theorem roundRobinAux_filter {p : Track → Bool} (fuel : Nat) :
    ∀ (pre : List (List Track)) (mid : List Track) (post : List (List Track)),
      totalLen (pre ++ mid :: post) ≤ fuel →
      (∀ l ∈ pre, l.filter p = []) → (∀ l ∈ post, l.filter p = []) →
      mid.filter p = mid →
      (roundRobinAux fuel (pre ++ mid :: post)).filter p = mid := by
  induction fuel with
  | zero =>
      intro pre mid post h hpre hpost hmid
      have h0 : totalLen (pre ++ mid :: post) = 0 := Nat.le_zero.mp h
      rw [totalLen_append, totalLen_cons] at h0
      have hm : mid = [] := List.length_eq_zero.mp (by omega)
      rw [roundRobinAux]
      simpa using hm.symm
  | succ n ih =>
      intro pre mid post h hpre hpost hmid
      rw [roundRobinAux]
      by_cases h0 : totalLen (pre ++ mid :: post) = 0
      · rw [if_pos h0]
        rw [totalLen_append, totalLen_cons] at h0
        have hm : mid = [] := List.length_eq_zero.mp (by omega)
        simpa using hm.symm
      · rw [if_neg h0]
        have hmap : (pre ++ mid :: post).map List.tail
            = pre.map List.tail ++ mid.tail :: post.map List.tail := by simp
        have htails : (roundRobinAux n ((pre ++ mid :: post).map List.tail)).filter p
            = mid.tail := by
          rw [hmap]
          refine ih _ _ _ ?_ ?_ ?_ (filter_tail_eq_self hmid)
          · have hlt := totalLen_map_tail_lt _ h0
            rw [hmap] at hlt
            omega
          · intro l hl
            obtain ⟨l0, hl0, rfl⟩ := List.mem_map.mp hl
            exact filter_tail_eq_nil (hpre l0 hl0)
          · intro l hl
            obtain ⟨l0, hl0, rfl⟩ := List.mem_map.mp hl
            exact filter_tail_eq_nil (hpost l0 hl0)
        rw [List.filter_append, htails]
        have hpreheads := filter_filterMap_head_eq_nil hpre
        have hpostheads := filter_filterMap_head_eq_nil hpost
        cases mid with
        | nil =>
            rw [List.filterMap_append]
            simp [List.filter_append, hpreheads, hpostheads]
        | cons a t =>
            have hpa : p a = true :=
              List.filter_eq_self.mp hmid a (List.mem_cons_self _ _)
            rw [List.filterMap_append]
            simp [List.filter_append, List.filterMap_cons, List.filter_cons,
              hpreheads, hpostheads, hpa]

/-- Claim C2: for every requester id, the subsequence of that requester's
tracks in the scheduler's output equals the subsequence of their tracks in
the input, in the same relative order. -/
theorem fairplay_requester_order (ts : List Track) (rid : String) :
    ((applyFairPlayToQueue ts).1).filter (fun u => u.requesterId == rid) =
      ts.filter (fun u => u.requesterId == rid) := by
  have hhom := requesterGroups_homog ts
  have hnd := requesterGroups_nodup_keys ts
  show (reorder ts).filter (fun u => u.requesterId == rid) = _
  by_cases hmem : rid ∈ (requesterGroups ts).map Prod.fst
  · obtain ⟨pr, hpr, hfst⟩ := List.mem_map.mp hmem
    obtain ⟨pre, post, hg⟩ := List.append_of_mem hpr
    obtain ⟨k, l⟩ := pr
    have hk : k = rid := hfst
    subst hk
    have hndk : ((pre ++ (k, l) :: post).map Prod.fst).Nodup := hg ▸ hnd
    rw [List.map_append, List.map_cons, List.nodup_append] at hndk
    obtain ⟨hndpre, hndmid, hdisj⟩ := hndk
    have hknotpre : k ∉ pre.map Prod.fst :=
      fun hmem2 => hdisj hmem2 (List.mem_cons_self _ _)
    have hknotpost : k ∉ post.map Prod.fst := (List.nodup_cons.mp hndmid).1
    have hhomg : ∀ q ∈ pre ++ (k, l) :: post, ∀ u ∈ q.2, u.requesterId = q.1 :=
      hg ▸ hhom
    have hpre : ∀ l2 ∈ pre.map Prod.snd, l2.filter (fun u => u.requesterId == k) = [] := by
      intro l2 hl2
      obtain ⟨q, hq, rfl⟩ := List.mem_map.mp hl2
      refine filter_eq_nil_of_other_key
        (hhomg q (List.mem_append_left _ hq)) (fun he => ?_)
      exact hknotpre (he ▸ List.mem_map_of_mem Prod.fst hq)
    have hpost : ∀ l2 ∈ post.map Prod.snd, l2.filter (fun u => u.requesterId == k) = [] := by
      intro l2 hl2
      obtain ⟨q, hq, rfl⟩ := List.mem_map.mp hl2
      refine filter_eq_nil_of_other_key
        (hhomg q (List.mem_append_right _ (List.mem_cons_of_mem _ hq))) (fun he => ?_)
      exact hknotpost (he ▸ List.mem_map_of_mem Prod.fst hq)
    have hmid : l.filter (fun u => u.requesterId == k) = l :=
      filter_eq_self_of_key
        (hhomg (k, l) (List.mem_append_right _ (List.mem_cons_self _ _))) rfl
    have hGL : groupLists (requesterGroups ts)
        = pre.map Prod.snd ++ l :: post.map Prod.snd := by
      rw [hg]; simp [groupLists]
    have hout : (reorder ts).filter (fun u => u.requesterId == k) = l := by
      show (roundRobinAux (totalLen (groupLists (requesterGroups ts)))
        (groupLists (requesterGroups ts))).filter (fun u => u.requesterId == k) = l
      rw [hGL]
      exact roundRobinAux_filter _ _ _ _ (Nat.le_refl _) hpre hpost hmid
    have hflt : l = ts.filter (fun u => u.requesterId == k) := by
      have hrg := requesterGroups_flatten_filter k ts
      rw [hg] at hrg
      simp only [List.map_append, List.map_cons, List.flatten_append,
        List.flatten_cons] at hrg
      rw [flatten_filter_eq_nil_of_no_key
          (fun q hq => hhomg q (List.mem_append_left _ hq)) hknotpre,
        flatten_filter_eq_nil_of_no_key
          (fun q hq => hhomg q (List.mem_append_right _ (List.mem_cons_of_mem _ hq)))
          hknotpost, hmid] at hrg
      simpa using hrg
    rw [hout, hflt]
  · have hts : ts.filter (fun u => u.requesterId == rid) = [] := by
      rw [← requesterGroups_flatten_filter rid ts]
      exact flatten_filter_eq_nil_of_no_key hhom hmem
    have hperm := (reorder_perm ts).filter (fun u => u.requesterId == rid)
    rw [hts] at hperm ⊢
    exact hperm.eq_nil

/-- Claim C1: the sequence produced by `applyFairPlayToQueue` is a
permutation of the input queue — same multiset of tracks, nothing added,
removed or duplicated — and in particular of the same length. -/
theorem fairplay_permutation (ts : List Track) :
    ((applyFairPlayToQueue ts).1).Perm ts ∧ (applyFairPlayToQueue ts).1.length = ts.length := by
  have h : ((applyFairPlayToQueue ts).1).Perm ts := reorder_perm ts
  exact ⟨h, h.length_eq⟩

/-! ### Helper lemmas: the rounds decomposition of the loop -/

theorem groupLists_map_tail (g : ReqGroups) :
    groupLists (g.map fun pr => (pr.1, pr.2.tail)) = (groupLists g).map List.tail := by
  simp only [groupLists, List.map_map]
  rfl

theorem roundsAux_flatten (fuel : Nat) :
    ∀ g : ReqGroups, roundRobinAux fuel (groupLists g) = (roundsAux fuel g).flatten := by
  induction fuel with
  | zero => intro g; rfl
  | succ n ih =>
      intro g
      rw [roundRobinAux, roundsAux]
      by_cases h0 : totalLen (groupLists g) = 0
      · rw [if_pos h0, if_pos h0]; rfl
      · rw [if_neg h0, if_neg h0, List.flatten_cons]
        congr 1
        rw [← groupLists_map_tail]
        exact ih _

/-- In one round the picked tracks' requester ids form a sublist of the
group keys (each non-empty group contributes its key once). -/
theorem heads_requesterIds_sublist (g : ReqGroups)
    (hhom : ∀ pr ∈ g, ∀ u ∈ pr.2, u.requesterId = pr.1) :
    List.Sublist (((groupLists g).filterMap List.head?).map Track.requesterId)
      (g.map Prod.fst) := by
  induction g with
  | nil => simp [groupLists]
  | cons pr rest ih =>
      obtain ⟨k, l⟩ := pr
      have hrest := ih (fun q hq => hhom q (List.mem_cons_of_mem _ hq))
      cases l with
      | nil =>
          simp only [groupLists, List.map_cons, List.filterMap_cons]
          simpa [groupLists] using hrest.cons k
      | cons a t =>
          have ha : a.requesterId = k :=
            hhom (k, a :: t) (List.mem_cons_self _ _) a (List.mem_cons_self _ _)
          simp only [groupLists, List.map_cons, List.filterMap_cons, List.head?_cons,
            List.map_cons]
          rw [ha]
          simpa [groupLists] using hrest.cons₂ k

theorem roundsAux_nodup (fuel : Nat) :
    ∀ g : ReqGroups, (∀ pr ∈ g, ∀ u ∈ pr.2, u.requesterId = pr.1) →
      (g.map Prod.fst).Nodup →
      ∀ r ∈ roundsAux fuel g, (r.map Track.requesterId).Nodup := by
  induction fuel with
  | zero => intro g _ _ r hr; simp [roundsAux] at hr
  | succ n ih =>
      intro g hhom hnd r hr
      rw [roundsAux] at hr
      by_cases h0 : totalLen (groupLists g) = 0
      · rw [if_pos h0] at hr; simp at hr
      · rw [if_neg h0] at hr
        rcases List.mem_cons.mp hr with h1 | h1
        · subst h1
          exact hnd.sublist (heads_requesterIds_sublist g hhom)
        · refine ih _ ?_ ?_ r h1
          · intro pr hpr u hu
            obtain ⟨q, hq, rfl⟩ := List.mem_map.mp hpr
            exact hhom q hq u (List.mem_of_mem_tail hu)
          · have hkeys : ((g.map fun pr => (pr.1, pr.2.tail)).map Prod.fst)
                = g.map Prod.fst := by
              simp only [List.map_map]; rfl
            rw [hkeys]
            exact hnd

/-- Claim C3: the scheduler's output decomposes into the successive rounds
of the loop over the requester groups in first-appearance order, and within
any single round all picked tracks have pairwise distinct requester ids —
so no requester ever contributes two tracks in one round (in particular not
when other requesters still have tracks remaining, which is the claim's
weaker "unless sole remaining" form). -/
theorem fairplay_rounds_fair (ts : List Track) :
    (applyFairPlayToQueue ts).1 = (fairRounds ts).flatten ∧
    ∀ r ∈ fairRounds ts, (r.map Track.requesterId).Nodup := by
  constructor
  · exact roundsAux_flatten _ (requesterGroups ts)
  · exact roundsAux_nodup _ _ (requesterGroups_homog ts) (requesterGroups_nodup_keys ts)

/-- Witness for claim C3 at the concrete queue `[a1, a2, b1]`. -/
theorem fairplay_rounds_fair_witness :
    (applyFairPlayToQueue [tA1, tA2, tB1]).1 = (fairRounds [tA1, tA2, tB1]).flatten ∧
    ∀ r ∈ fairRounds [tA1, tA2, tB1], (r.map Track.requesterId).Nodup :=
  fairplay_rounds_fair [tA1, tA2, tB1]

/-! ### Helper lemmas: the loop measure -/

theorem filterMap_head_length_add_tails (groups : List (List Track)) :
    (groups.filterMap List.head?).length + totalLen (groups.map List.tail)
      = totalLen groups := by
  induction groups with
  | nil => rfl
  | cons g gs ih =>
      cases g with
      | nil => simpa [totalLen_cons] using ih
      | cons a t =>
          simp only [List.filterMap_cons, List.head?_cons, List.map_cons, List.tail_cons,
            List.length_cons, totalLen_cons]
          omega

theorem roundRobinAux_length (fuel : Nat) :
    ∀ groups : List (List Track), totalLen groups ≤ fuel →
      (roundRobinAux fuel groups).length = totalLen groups := by
  induction fuel with
  | zero =>
      intro groups h
      rw [roundRobinAux]
      simpa using (Nat.le_zero.mp h).symm
  | succ n ih =>
      intro groups h
      rw [roundRobinAux]
      by_cases h0 : totalLen groups = 0
      · rw [if_pos h0]; simp [h0]
      · rw [if_neg h0, List.length_append]
        have hlt := totalLen_map_tail_lt groups h0
        rw [ih _ (by omega)]
        exact filterMap_head_length_add_tails groups

/-- Claim C10: the round-robin construction loop terminates on every finite
input. While tracks remain to be placed (`totalLen groups ≠ 0`), one full
pass over the groups appends at least one track, the measure of remaining
tracks strictly decreases, and running the loop with exactly that measure
as its pass budget places every track — the loop is total. -/
theorem fairplay_loop_terminates (groups : List (List Track))
    (h : totalLen groups ≠ 0) :
    0 < (groups.filterMap List.head?).length ∧
    totalLen (groups.map List.tail) < totalLen groups ∧
    (roundRobin groups).length = totalLen groups := by
  have h1 := filterMap_head_length_add_tails groups
  have h2 := totalLen_map_tail_lt groups h
  exact ⟨by omega, h2, roundRobinAux_length _ _ (Nat.le_refl _)⟩

/-- Witness for claim C10 at the concrete groups `[[a1, a2], [b1]]`. -/
theorem fairplay_loop_terminates_witness :
    0 < ([[tA1, tA2], [tB1]].filterMap List.head?).length ∧
    totalLen ([[tA1, tA2], [tB1]].map List.tail) < totalLen [[tA1, tA2], [tB1]] ∧
    (roundRobin [[tA1, tA2], [tB1]]).length = totalLen [[tA1, tA2], [tB1]] :=
  fairplay_loop_terminates [[tA1, tA2], [tB1]] (by decide)

/-- Claim C4, counterexample: on the concrete queue `[a1, a2, b1]` (two
tracks of requester `u1`, then one of `u2`) `applyFairPlayToQueue` itself
leaves the external queue changed — the final queue is the interleaved
`[a1, b1, a2]`, not the input — so the queue replacement is not left to a
caller. -/
theorem fairplay_mutation_cex :
    (applyFairPlayToQueue [tA1, tA2, tB1]).2 ≠ [tA1, tA2, tB1] := by
  decide

/-- Claim C4, amended: `applyFairPlayToQueue` computes the new ordering as
the pure function `reorder` of the queue snapshot, and then itself replaces
the queue's contents (clear via `splice`, then one bulk `add`) with exactly
that ordering, returning it: for every queue the returned sequence and the
final queue contents both equal `reorder` of the input. -/
theorem fairplay_computes_and_replaces (q : List Track) :
    applyFairPlayToQueue q = (reorder q, reorder q) := by
  simp [applyFairPlayToQueue, List.drop_length]

/-- Claim C5: if autoplay is disabled or the last track is absent,
`autoPlayFunction` is a no-op — the Last.fm lookup is never reached, no
search query is issued, `queue.add` is never called, the queue is unchanged
and playback is not started. -/
theorem autoplay_disabled_noop (p : PlayerState) (lt : Option Track)
    (apiKey : Option String) (rec : LastFmResponse) (search : Nat → SearchOutcome)
    (fb : SearchOutcome) (h : p.autoplay = false ∨ lt = none) :
    autoPlayFunction p lt apiKey rec search fb =
      { recCalled := false, searchQueries := [], queueAdds := [],
        finalQueue := p.queue, played := false } := by
  rcases h with h | h
  · simp [autoPlayFunction, h]
  · subst h
    cases hA : p.autoplay <;> simp [autoPlayFunction, hA]

/-- Witness for claim C5 at a concrete disabled player. -/
theorem autoplay_disabled_noop_witness :
    autoPlayFunction pDisabled (some tA1) (some "key") LastFmResponse.fail
      (fun _ => SearchOutcome.throws) SearchOutcome.throws =
      { recCalled := false, searchQueries := [], queueAdds := [],
        finalQueue := pDisabled.queue, played := false } :=
  autoplay_disabled_noop pDisabled (some tA1) (some "key") LastFmResponse.fail
    (fun _ => SearchOutcome.throws) SearchOutcome.throws (Or.inl rfl)

/-- Claim C6: when the Last.fm round trip throws/rejects (`fail`) or the
parsed body lacks the expected `similartracks.track` shape (`missing`), the
lookup returns the empty list, and `autoPlayFunction` (autoplay on, last
track present) proceeds directly to the fallback block with no primary
search issued; being a total function of the outcome, it raises nothing to
its caller. -/
theorem autoplay_recfailure_fallback (p : PlayerState) (lt : Track)
    (apiKey : Option String) (rec : LastFmResponse) (search : Nat → SearchOutcome)
    (fb : SearchOutcome) (hA : p.autoplay = true)
    (hrec : rec = LastFmResponse.fail ∨ rec = LastFmResponse.ok SimilarField.missing) :
    getSimilarTracksFromLastFm apiKey rec = [] ∧
    autoPlayFunction p (some lt) apiKey rec search fb = runFallback p lt fb [] := by
  have hsim : getSimilarTracksFromLastFm apiKey rec = [] := by
    rcases hrec with h | h <;> subst h <;>
      cases hk : apiKeyTruthy apiKey <;> simp [getSimilarTracksFromLastFm, hk]
  refine ⟨hsim, ?_⟩
  simp [autoPlayFunction, hA, hsim]

/-- Witness for claim C6 at a concrete failing lookup. -/
theorem autoplay_recfailure_fallback_witness :
    getSimilarTracksFromLastFm (some "key") LastFmResponse.fail = [] ∧
    autoPlayFunction pIdle (some tA1) (some "key") LastFmResponse.fail
        (fun _ => SearchOutcome.throws) (SearchOutcome.ok [tB1]) =
      runFallback pIdle tA1 (SearchOutcome.ok [tB1]) [] :=
  autoplay_recfailure_fallback pIdle tA1 (some "key") LastFmResponse.fail
    (fun _ => SearchOutcome.throws) (SearchOutcome.ok [tB1]) rfl (Or.inl rfl)

/-! ### Helper lemmas: the autoplay pipeline's enqueue behaviour -/

theorem runFallback_no_candidates (p : PlayerState) (lt : Track) (fb : SearchOutcome)
    (q : List String) (h : fallbackYieldsNone fb = true) :
    (runFallback p lt fb q).queueAdds = [] ∧
    (runFallback p lt fb q).finalQueue = p.queue ∧
    (runFallback p lt fb q).played = false := by
  cases fb with
  | throws => simp [runFallback]
  | ok ts =>
      have hcl : fallbackCleanedTracks ts = [] := by
        simpa [fallbackYieldsNone, List.isEmpty_iff] using h
      by_cases hl : 0 < ts.length
      · simp [runFallback, hl, hcl]
      · simp [runFallback, hl]

/-- Every payload of a `queue.add` in the fallback block is the cleaned
(filtered, capped, tagged) result of an `ok` fallback search. -/
theorem runFallback_adds (p : PlayerState) (lt : Track) (fb : SearchOutcome)
    (q : List String) :
    ∀ l ∈ (runFallback p lt fb q).queueAdds,
      ∃ ts, fb = SearchOutcome.ok ts ∧ l = fallbackCleanedTracks ts := by
  intro l hl
  cases fb with
  | throws => simp [runFallback] at hl
  | ok ts =>
      refine ⟨ts, rfl, ?_⟩
      by_cases h1 : 0 < ts.length
      · by_cases h2 : 0 < (fallbackCleanedTracks ts).length
        · simp [runFallback, h1, h2] at hl
          exact hl
        · simp [runFallback, h1, h2] at hl
      · simp [runFallback, h1] at hl

/-- Every payload of a `queue.add` in the whole pipeline is either a
primary-path collection or a fallback-path collection. -/
theorem autoPlayFunction_adds (p : PlayerState) (lt : Option Track)
    (apiKey : Option String) (rec : LastFmResponse) (search : Nat → SearchOutcome)
    (fb : SearchOutcome) :
    ∀ l ∈ (autoPlayFunction p lt apiKey rec search fb).queueAdds,
      (∃ cands, l = primaryFoundTracks cands search) ∨
      (∃ ts, fb = SearchOutcome.ok ts ∧ l = fallbackCleanedTracks ts) := by
  intro l hl
  cases hA : p.autoplay with
  | false => simp [autoPlayFunction, hA] at hl
  | true =>
      cases lt with
      | none => simp [autoPlayFunction, hA] at hl
      | some t =>
          simp only [autoPlayFunction, hA] at hl
          by_cases hlen : 0 < (getSimilarTracksFromLastFm apiKey rec).length
          · rw [if_pos hlen] at hl
            by_cases hfound : 0 <
                (primaryFoundTracks ((getSimilarTracksFromLastFm apiKey rec).take 10)
                  search).length
            · rw [if_pos hfound] at hl
              simp at hl
              exact Or.inl ⟨_, hl⟩
            · rw [if_neg hfound] at hl
              exact Or.inr (runFallback_adds p t fb _ l hl)
          · rw [if_neg hlen] at hl
            exact Or.inr (runFallback_adds p t fb _ l hl)

theorem markAutoplay_title (t : Track) : (markAutoplay t).title = t.title := rfl

theorem titleKeep_of_mem_primary {cands : List Candidate} {search : Nat → SearchOutcome}
    {t : Track} (h : t ∈ primaryFoundTracks cands search) : titleKeep t.title = true := by
  obtain ⟨s, hs, rfl⟩ := List.mem_map.mp h
  rw [markAutoplay_title]
  exact (List.mem_filter.mp (List.mem_of_mem_take hs)).2

theorem titleKeep_of_mem_fallback {ts : List Track} {t : Track}
    (h : t ∈ fallbackCleanedTracks ts) : titleKeep t.title = true := by
  obtain ⟨s, hs, rfl⟩ := List.mem_map.mp h
  rw [markAutoplay_title]
  exact (List.mem_filter.mp (List.mem_of_mem_take hs)).2

/-! ### Claims C7, C8, C9 -/

/-- Claim C7: when zero acceptable candidate tracks survive filtering on
both the primary path and the fallback path, `autoPlayFunction` performs no
`queue.add`, leaves the queue unchanged and never triggers playback. -/
theorem autoplay_no_candidates_no_mutation (p : PlayerState) (lt : Option Track)
    (apiKey : Option String) (rec : LastFmResponse) (search : Nat → SearchOutcome)
    (fb : SearchOutcome)
    (h1 : primaryFoundTracks ((getSimilarTracksFromLastFm apiKey rec).take 10) search = [])
    (h2 : fallbackYieldsNone fb = true) :
    (autoPlayFunction p lt apiKey rec search fb).queueAdds = [] ∧
    (autoPlayFunction p lt apiKey rec search fb).finalQueue = p.queue ∧
    (autoPlayFunction p lt apiKey rec search fb).played = false := by
  cases hA : p.autoplay with
  | false => simp [autoPlayFunction, hA]
  | true =>
      cases lt with
      | none => simp [autoPlayFunction, hA]
      | some t =>
          simp only [autoPlayFunction, hA]
          by_cases hlen : 0 < (getSimilarTracksFromLastFm apiKey rec).length
          · rw [if_pos hlen, h1]
            simpa using runFallback_no_candidates p t fb _ h2
          · rw [if_neg hlen]
            exact runFallback_no_candidates p t fb _ h2

/-- Witness for claim C7: no API key (so no candidates) and a fallback
result consisting only of a lyric-video upload. -/
theorem autoplay_no_candidates_no_mutation_witness :
    (autoPlayFunction pIdle (some tA1) none LastFmResponse.fail
        (fun _ => SearchOutcome.throws) (SearchOutcome.ok [tLyr])).queueAdds = [] ∧
    (autoPlayFunction pIdle (some tA1) none LastFmResponse.fail
        (fun _ => SearchOutcome.throws) (SearchOutcome.ok [tLyr])).finalQueue = pIdle.queue ∧
    (autoPlayFunction pIdle (some tA1) none LastFmResponse.fail
        (fun _ => SearchOutcome.throws) (SearchOutcome.ok [tLyr])).played = false :=
  autoplay_no_candidates_no_mutation pIdle (some tA1) none LastFmResponse.fail
    (fun _ => SearchOutcome.throws) (SearchOutcome.ok [tLyr]) (by decide) (by decide)

/-- Claim C8: every track in every `queue.add` payload of the pipeline — on
the primary as well as the fallback path — has a title whose lowercased
characters contain neither "lyrics" nor "lyric" as a substring. -/
theorem autoplay_lyric_filter (p : PlayerState) (lt : Option Track)
    (apiKey : Option String) (rec : LastFmResponse) (search : Nat → SearchOutcome)
    (fb : SearchOutcome) :
    ∀ l ∈ (autoPlayFunction p lt apiKey rec search fb).queueAdds, ∀ t ∈ l,
      containsSubChars ("lyrics".data) (lowerChars t.title.data) = false ∧
      containsSubChars ("lyric".data) (lowerChars t.title.data) = false := by
  intro l hl t ht
  have hkeep : titleKeep t.title = true := by
    rcases autoPlayFunction_adds p lt apiKey rec search fb l hl with ⟨cands, rfl⟩ | ⟨ts, _, rfl⟩
    · exact titleKeep_of_mem_primary ht
    · exact titleKeep_of_mem_fallback ht
  simpa only [titleKeep, Bool.and_eq_true, Bool.not_eq_true'] using hkeep

/-- Witness for claim C8: the concrete fallback enqueue of a clean-titled
track passes the lyric-substring check. -/
theorem autoplay_lyric_filter_witness :
    containsSubChars ("lyrics".data) (lowerChars (markAutoplay tB1).title.data) = false ∧
    containsSubChars ("lyric".data) (lowerChars (markAutoplay tB1).title.data) = false :=
  autoplay_lyric_filter pIdle (some tA1) none LastFmResponse.fail
    (fun _ => SearchOutcome.throws) (SearchOutcome.ok [tB1])
    (fallbackCleanedTracks [tB1]) (by decide) (markAutoplay tB1) (by decide)

theorem getKey_setKey_same (bag : List (String × Bool)) (k : String) (v : Bool) :
    getKey (setKey bag k v) k = some v := by
  induction bag with
  | nil => simp [setKey, getKey]
  | cons pr rest ih =>
      obtain ⟨k1, v1⟩ := pr
      by_cases hk : k1 = k
      · simp [setKey, getKey, hk]
      · simp [setKey, getKey, hk, ih]

theorem getKey_setKey_other (bag : List (String × Bool)) (k k2 : String) (v : Bool)
    (hne : k2 ≠ k) : getKey (setKey bag k v) k2 = getKey bag k2 := by
  have hne2 : k ≠ k2 := fun h => hne h.symm
  induction bag with
  | nil => simp [setKey, getKey, hne2]
  | cons pr rest ih =>
      obtain ⟨k1, v1⟩ := pr
      by_cases hk : k1 = k
      · subst hk
        simp [setKey, getKey, hne2]
      · by_cases hk2 : k1 = k2
        · subst hk2
          simp [setKey, getKey, hk]
        · simp [setKey, getKey, hk, hk2, ih]

/-- The autoplay tag is set after marking. -/
theorem clientDataGet_markAutoplay_same (t : Track) :
    clientDataGet (markAutoplay t) "fromAutoplay" = some true := by
  simp [clientDataGet, markAutoplay, getKey_setKey_same]

/-- Marking merges: every other annotation key is preserved. -/
theorem clientDataGet_markAutoplay_other (t : Track) (k2 : String)
    (h : k2 ≠ "fromAutoplay") :
    clientDataGet (markAutoplay t) k2 = clientDataGet t k2 := by
  simp [clientDataGet, markAutoplay, getKey_setKey_other _ _ _ _ h]

theorem fallbackCleanedTracks_length_le (ts : List Track) :
    (fallbackCleanedTracks ts).length ≤ 3 := by
  simp [fallbackCleanedTracks, List.length_take_le]

/-- Claim C9: when the fallback search returns a list whose lyric-filtered
remainder has between 1 and 3 tracks, the fallback block enqueues exactly
those tracks in their filtered order, each tagged by merging the autoplay
marker into its existing annotations; and no fallback enqueue ever exceeds
3 tracks. -/
theorem autoplay_fallback_enqueue (p : PlayerState) (lt : Track) (ts : List Track)
    (q : List String)
    (h1 : 1 ≤ ((ts.filter fun u => titleKeep u.title)).length)
    (h2 : ((ts.filter fun u => titleKeep u.title)).length ≤ 3) :
    (runFallback p lt (SearchOutcome.ok ts) q).queueAdds =
      [((ts.filter fun u => titleKeep u.title)).map markAutoplay] ∧
    (∀ t0 : Track, clientDataGet (markAutoplay t0) "fromAutoplay" = some true ∧
      ∀ k2, k2 ≠ "fromAutoplay" →
        clientDataGet (markAutoplay t0) k2 = clientDataGet t0 k2) ∧
    (∀ (fb2 : SearchOutcome) (q2 : List String),
      ∀ l ∈ (runFallback p lt fb2 q2).queueAdds, l.length ≤ 3) := by
  have htake : (ts.filter fun u => titleKeep u.title).take 3
      = ts.filter fun u => titleKeep u.title := List.take_of_length_le h2
  have hcl : fallbackCleanedTracks ts
      = ((ts.filter fun u => titleKeep u.title)).map markAutoplay := by
    rw [fallbackCleanedTracks, htake]
  have hlen : 0 < ts.length := by
    have := List.length_filter_le (fun u => titleKeep u.title) ts
    omega
  have hclpos : 0 < (fallbackCleanedTracks ts).length := by
    rw [hcl, List.length_map]
    omega
  have h1b : 0 < ((ts.filter fun u => titleKeep u.title)).length := h1
  refine ⟨?_, ?_, ?_⟩
  · simp [runFallback, hlen, hclpos, hcl, h1b]
  · intro t0
    exact ⟨clientDataGet_markAutoplay_same t0,
      fun k2 hk2 => clientDataGet_markAutoplay_other t0 k2 hk2⟩
  · intro fb2 q2 l hl
    obtain ⟨ts2, _, rfl⟩ := runFallback_adds p lt fb2 q2 l hl
    exact fallbackCleanedTracks_length_le ts2

/-- Witness for claim C9: a fallback result with one lyric video and two
clean tracks enqueues exactly the two clean tracks, tagged, in order. -/
theorem autoplay_fallback_enqueue_witness :
    (1 ≤ (([tB1, tLyr, tA2].filter fun u => titleKeep u.title)).length) ∧
    ((([tB1, tLyr, tA2].filter fun u => titleKeep u.title)).length ≤ 3) ∧
    ((runFallback pIdle tA1 (SearchOutcome.ok [tB1, tLyr, tA2]) []).queueAdds =
        [(([tB1, tLyr, tA2].filter fun u => titleKeep u.title)).map markAutoplay] ∧
      (∀ t0 : Track, clientDataGet (markAutoplay t0) "fromAutoplay" = some true ∧
        ∀ k2, k2 ≠ "fromAutoplay" →
          clientDataGet (markAutoplay t0) k2 = clientDataGet t0 k2) ∧
      (∀ (fb2 : SearchOutcome) (q2 : List String),
        ∀ l ∈ (runFallback pIdle tA1 fb2 q2).queueAdds, l.length ≤ 3)) :=
  ⟨by decide, by decide,
    autoplay_fallback_enqueue pIdle tA1 [tB1, tLyr, tA2] [] (by decide) (by decide)⟩

end Lavamusic
